import Mathlib

/-!
Verification of the nestify-backend tree service (src/main.py) against its
specification.

The service stores a forest of named nodes in a single relational table
`tree_items` with columns `id` (auto-assigned primary key), `name`,
`data` (nullable) and `parent_id` (nullable self reference).  We embed the
store as a list of rows in physical (scan) order together with the
auto-increment counter, and each HTTP handler of `src/main.py` as a pure
state-passing function.  SQL semantics used by the handlers:

* `SELECT ... WHERE p` without `ORDER BY` returns the matching rows in the
  table's physical scan order (modelled as the order of the row list);
* `SELECT ... WHERE p ORDER BY id` returns the matching rows sorted by id;
* `INSERT` appends a fresh row whose id is the current counter value;
* `UPDATE ... SET data WHERE id = x` rewrites the data field of the
  matching rows in place;
* `DELETE ... WHERE id = x` removes the matching rows.

Python recursion (`build_tree_recursive`, `delete_recursive`) has no
termination metric of its own; the embedding adds an explicit fuel
parameter, and the handlers invoke it with fuel `rows.length + 1`, which is
shown to be sufficient on every well-formed store.
-/

/-- One persisted row of the `tree_items` table (class `TreeNode` in
src/main.py, columns `id`, `name`, `data`, `parent_id`). -/
structure TreeNode where
  id : Nat
  name : String
  data : Option String
  parent_id : Option Nat
deriving DecidableEq

/-- The database state: rows in physical scan order plus the
auto-increment counter for the primary key. -/
structure DB where
  rows : List TreeNode
  nextId : Nat
deriving DecidableEq

/-- Pydantic request model `TreeItemCreate` (src/main.py lines 58-61):
a validated nested input node with required `name`, optional `data` and
optional list of children. -/
inductive TreeItemCreate where
  | mk (name : String) (data : Option String) (children : Option (List TreeItemCreate))

/-- Pydantic request model `TreeItemUpdate` (src/main.py lines 64-65):
`data` is a required string. -/
structure TreeItemUpdate where
  data : String
deriving DecidableEq

/-- Pydantic response model `TreeItemResponse` (src/main.py lines 68-73). -/
inductive TreeItemResponse where
  | mk (id : Nat) (name : String) (data : Option String) (parent_id : Option Nat)
      (children : Option (List TreeItemResponse))

def TreeItemResponse.id : TreeItemResponse → Nat
  | .mk i _ _ _ _ => i

def TreeItemResponse.name : TreeItemResponse → String
  | .mk _ nm _ _ _ => nm

def TreeItemResponse.children : TreeItemResponse → Option (List TreeItemResponse)
  | .mk _ _ _ _ ch => ch

/-- Raw JSON request body for POST /api/tree, before pydantic validation.
Each field is `none` when absent and `some none` when explicitly `null`
(for `children`, `some (some l)` is a JSON array). -/
inductive RawTreeItem where
  | mk (name : Option (Option String)) (data : Option (Option String))
      (children : Option (Option (List RawTreeItem)))

/-- Raw JSON request body for PUT /api/tree/{id}/data before validation:
`none` when the `data` field is absent, `some none` when it is `null`. -/
structure RawTreeItemUpdate where
  data : Option (Option String)

/-- The children query of `build_tree_recursive` (src/main.py line 116):
`SELECT id FROM tree_items WHERE parent_id = :parent_id` — note: the
source query has no ORDER BY, so the result follows physical scan order. -/
def fetchChildren (db : DB) (nodeId : Nat) : List Nat :=
  (db.rows.filter (fun r => r.parent_id == some nodeId)).map (fun r => r.id)

/-- The root query of `retrieve_tree` (src/main.py line 137):
`SELECT id FROM tree_items WHERE parent_id IS NULL ORDER BY id`. -/
def fetchRootIds (db : DB) : List Nat :=
  ((db.rows.filter (fun r => r.parent_id.isNone)).map (fun r => r.id)).mergeSort
    (fun a b => a ≤ b)

/-- The point query `SELECT * FROM tree_items WHERE id = :node_id`
(src/main.py lines 110, 176, 195): first matching row in scan order. -/
def fetchNode (db : DB) (nodeId : Nat) : Option TreeNode :=
  db.rows.find? (fun r => r.id == nodeId)

mutual

/-- `insert_tree_recursive` (src/main.py lines 90-105): insert the node,
then recursively insert its children under the fresh id; returns the
fresh id of the inserted node.  (A `children` value that is absent or the
empty list is falsy in Python, and inserting an empty child list is a
no-op, so both branches agree with the source's `if item.children:`.) -/
def insert_tree_recursive : TreeItemCreate → Option Nat → DB → Nat × DB
  | .mk nm d none, parent, db =>
    (db.nextId, ⟨db.rows ++ [⟨db.nextId, nm, d, parent⟩], db.nextId + 1⟩)
  | .mk nm d (some cs), parent, db =>
    (db.nextId, insert_children cs db.nextId
      ⟨db.rows ++ [⟨db.nextId, nm, d, parent⟩], db.nextId + 1⟩)

/-- The `for child in item.children:` loop of `insert_tree_recursive`. -/
def insert_children : List TreeItemCreate → Nat → DB → DB
  | [], _, db => db
  | c :: cs, pid, db => insert_children cs pid (insert_tree_recursive c (some pid) db).2

end

/-- `build_tree_recursive` (src/main.py lines 108-131) with explicit fuel:
fetch the node, fetch its children ids (scan order, no ORDER BY),
recursively build each child, and attach `children` as `none` when the
built list is empty (`children if children else None`). -/
def build_tree_recursive : Nat → Nat → DB → Option TreeItemResponse
  | 0, _, _ => none
  | fuel + 1, nodeId, db =>
    match fetchNode db nodeId with
    | none => none
    | some node =>
      let childIds := fetchChildren db nodeId
      let children := childIds.filterMap (fun c => build_tree_recursive fuel c db)
      some (.mk node.id node.name node.data node.parent_id
        (if children.isEmpty then none else some children))

/-- GET /api/tree, `retrieve_tree` (src/main.py lines 134-149): fetch the
root ids (ORDER BY id) and materialize each root; roots that fail to
build are skipped, an empty store yields the empty list. -/
def retrieve_tree (db : DB) : List TreeItemResponse :=
  (fetchRootIds db).filterMap (fun rid => build_tree_recursive (db.rows.length + 1) rid db)

/-- GET /api/tree/all, `retrieve_all_items` (src/main.py lines 152-157):
`SELECT * FROM tree_items ORDER BY id`. -/
def retrieve_all_items (db : DB) : List TreeNode :=
  db.rows.mergeSort (fun a b => a.id ≤ b.id)

/-- Response of POST /api/tree. -/
structure PostResp where
  message : String
  root_id : Nat
deriving DecidableEq

/-- Response of PUT /api/tree/{id}/data. -/
structure UpdateResp where
  item_id : Nat
  data : String
  message : String
deriving DecidableEq

/-- Response of DELETE /api/tree/{id}. -/
structure DeleteResp where
  item_id : Nat
  message : String
deriving DecidableEq

/-- POST /api/tree, `create_tree_item` (src/main.py lines 160-169):
`DELETE FROM tree_items` (every row; the id counter is not reset), then
insert the new tree with a null parent and return the new root id. -/
def create_tree_item (item : TreeItemCreate) (db : DB) : PostResp × DB :=
  let cleared : DB := ⟨[], db.nextId⟩
  let inserted := insert_tree_recursive item none cleared
  (⟨"Tree replaced successfully", inserted.1⟩, inserted.2)

/-- PUT /api/tree/{id}/data, `update_tree_item_data` (src/main.py lines
172-188): check existence first; 404 without touching the store if the id
is unknown, otherwise `UPDATE tree_items SET data = :data WHERE id = :item_id`. -/
def update_tree_item_data (itemId : Nat) (item : TreeItemUpdate) (db : DB) :
    Except Nat UpdateResp × DB :=
  match fetchNode db itemId with
  | none => (.error 404, db)
  | some _ =>
    (.ok ⟨itemId, item.data, "Data updated successfully"⟩,
      ⟨db.rows.map (fun r => if r.id == itemId then { r with data := some item.data } else r),
        db.nextId⟩)

mutual

/-- `delete_recursive` (src/main.py lines 202-210) with explicit fuel:
fetch the children ids (scan order), recursively delete each child's
subtree, then `DELETE FROM tree_items WHERE id = :item_id` for the node
itself.  Besides the final store it returns the trace of ids in the order
their DELETE statements execute. -/
def delete_recursive : Nat → Nat → DB → DB × List Nat
  | 0, _, db => (db, [])
  | fuel + 1, nodeId, db =>
    let step := delete_children fuel (fetchChildren db nodeId) db
    (⟨step.1.rows.filter (fun r => !(r.id == nodeId)), step.1.nextId⟩, step.2 ++ [nodeId])
termination_by fuel _ _ => (fuel, 0)

/-- The `for child in children:` loop of `delete_recursive`. -/
def delete_children : Nat → List Nat → DB → DB × List Nat
  | _, [], db => (db, [])
  | fuel, c :: cs, db =>
    let r1 := delete_recursive fuel c db
    let r2 := delete_children fuel cs r1.1
    (r2.1, r1.2 ++ r2.2)
termination_by fuel cs _ => (fuel, cs.length + 1)

end

/-- DELETE /api/tree/{id}, `delete_tree_item` (src/main.py lines 191-213):
check existence first; 404 without touching the store if unknown,
otherwise run the recursive delete. -/
def delete_tree_item (itemId : Nat) (db : DB) : Except Nat DeleteResp × DB :=
  match fetchNode db itemId with
  | none => (.error 404, db)
  | some _ =>
    (.ok ⟨itemId, "Item and children deleted successfully"⟩,
      (delete_recursive (db.rows.length + 1) itemId db).1)

mutual

/-- Pydantic validation of the POST /api/tree body against `TreeItemCreate`
(src/main.py lines 58-61): `name: str` rejects an absent or null name,
`data: Optional[str] = None` maps absent and null to `None`, and
`children: Optional[List[TreeItemCreate]] = None` validates each child
recursively.  FastAPI rejects an invalid body with 422 before the handler
runs. -/
def validate_tree_item_create : RawTreeItem → Except Unit TreeItemCreate
  | .mk name dat children =>
    match name with
    | some (some nm) =>
      match children with
      | some (some cs) =>
        match validate_children cs with
        | .error e => .error e
        | .ok cs2 => .ok (.mk nm dat.join (some cs2))
      | _ => .ok (.mk nm dat.join none)
    | _ => .error ()

/-- Validation of a list of raw children, first error wins. -/
def validate_children : List RawTreeItem → Except Unit (List TreeItemCreate)
  | [] => .ok []
  | c :: cs =>
    match validate_tree_item_create c with
    | .error e => .error e
    | .ok c2 =>
      match validate_children cs with
      | .error e => .error e
      | .ok cs2 => .ok (c2 :: cs2)

end

/-- Pydantic validation of the PUT /api/tree/{id}/data body against
`TreeItemUpdate` (src/main.py lines 64-65): `data: str` rejects an absent
or null `data` field. -/
def validate_tree_item_update : RawTreeItemUpdate → Except Unit TreeItemUpdate
  | ⟨some (some s)⟩ => .ok ⟨s⟩
  | _ => .error ()

/-- The full POST /api/tree pipeline: framework validation (422 on
failure, store untouched) and then the handler. -/
def post_api_tree (raw : RawTreeItem) (db : DB) : Except Nat PostResp × DB :=
  match validate_tree_item_create raw with
  | .error _ => (.error 422, db)
  | .ok item =>
    let r := create_tree_item item db
    (.ok r.1, r.2)

/-- The full PUT /api/tree/{id}/data pipeline: framework validation (422
on failure, store untouched) and then the handler. -/
def put_api_tree_data (itemId : Nat) (raw : RawTreeItemUpdate) (db : DB) :
    Except Nat UpdateResp × DB :=
  match validate_tree_item_update raw with
  | .error _ => (.error 422, db)
  | .ok item => update_tree_item_data itemId item db

/-- Whether a row's parent id (if any) is strictly below its own id. -/
def parentLtB (r : TreeNode) : Bool :=
  match r.parent_id with
  | none => true
  | some p => p < r.id

/-- Store invariant maintained by the service: ids are unique (primary
key) and every parent id is strictly below the child's id (ids come from
an increasing counter and `insert_tree_recursive` always inserts a parent
before its children). -/
def WF (db : DB) : Prop :=
  (db.rows.map (fun r => r.id)).Nodup ∧ ∀ r ∈ db.rows, parentLtB r = true

instance (db : DB) : Decidable (WF db) := by
  unfold WF; infer_instance

/-- `c` is (the id of) a child row of node `p` in the store. -/
def childOf (db : DB) (p c : Nat) : Prop :=
  ∃ r ∈ db.rows, r.id = c ∧ r.parent_id = some p

/-- `Desc db root x`: node `x` is `root` itself or a descendant of `root`
via the stored parent pointers (the subtree of `root`). -/
inductive Desc (db : DB) (root : Nat) : Nat → Prop
  | refl : Desc db root root
  | step {m c : Nat} : Desc db root m → childOf db m c → Desc db root c

/-- An id-free nested tree: just name, data and the ordered children.
Both request and response trees strip to this shape, with an absent
children field and an empty children list identified. -/
inductive PlainTree where
  | node (name : String) (data : Option String) (children : List PlainTree)

mutual

/-- Shape of a request tree: ids erased, absent children read as `[]`. -/
def stripItem : TreeItemCreate → PlainTree
  | .mk nm d none => .node nm d []
  | .mk nm d (some cs) => .node nm d (stripItems cs)

def stripItems : List TreeItemCreate → List PlainTree
  | [] => []
  | c :: cs => stripItem c :: stripItems cs

end

mutual

/-- Shape of a response tree: ids erased, absent children read as `[]`. -/
def stripResp : TreeItemResponse → PlainTree
  | .mk _ nm d _ none => .node nm d []
  | .mk _ nm d _ (some cs) => .node nm d (stripResps cs)

def stripResps : List TreeItemResponse → List PlainTree
  | [] => []
  | c :: cs => stripResp c :: stripResps cs

end

mutual

/-- Number of nodes of a request tree. -/
def isize : TreeItemCreate → Nat
  | .mk _ _ none => 1
  | .mk _ _ (some cs) => 1 + isizeList cs

def isizeList : List TreeItemCreate → Nat
  | [] => 0
  | c :: cs => isize c + isizeList cs

end

mutual

/-- The rows `insert_tree_recursive` appends for a subtree whose root
receives id `n` under parent `parent`: the node itself followed by the
flattened children, ids assigned consecutively in preorder. -/
def flattenItem : TreeItemCreate → Option Nat → Nat → List TreeNode
  | .mk nm d none, parent, n => [⟨n, nm, d, parent⟩]
  | .mk nm d (some cs), parent, n => ⟨n, nm, d, parent⟩ :: flattenItems cs n (n + 1)

def flattenItems : List TreeItemCreate → Nat → Nat → List TreeNode
  | [], _, _ => []
  | c :: cs, pid, n => flattenItem c (some pid) n ++ flattenItems cs pid (n + isize c)

end

def TreeItemCreate.name : TreeItemCreate → String
  | .mk nm _ _ => nm

def TreeItemCreate.data : TreeItemCreate → Option String
  | .mk _ d _ => d

def TreeItemCreate.children : TreeItemCreate → Option (List TreeItemCreate)
  | .mk _ _ ch => ch

/-- The rows holding the direct children of a node with id `pid` inside
`flattenItems cs pid m`: one row per child, at the start of each child's
id interval. -/
def childHeadRows : List TreeItemCreate → Nat → Nat → List TreeNode
  | [], _, _ => []
  | c :: cs, pid, m => ⟨m, c.name, c.data, some pid⟩ :: childHeadRows cs pid (m + isize c)

/-- Invariant of a response tree w.r.t. a store: at every node the
`children` field is `none` exactly when the store holds no child row for
that node's id, and it is never an explicit empty list. -/
inductive RespOk (db : DB) : TreeItemResponse → Prop
  | noChildren (i : Nat) (nm : String) (d : Option String) (p : Option Nat) :
      fetchChildren db i = [] → RespOk db (.mk i nm d p none)
  | someChildren (i : Nat) (nm : String) (d : Option String) (p : Option Nat)
      (l : List TreeItemResponse) :
      l ≠ [] → fetchChildren db i ≠ [] → (∀ t ∈ l, RespOk db t) →
      RespOk db (.mk i nm d p (some l))

/-- Structural induction principle for the nested inductive
`TreeItemCreate`, by strong induction on `sizeOf`. -/
theorem treeItemCreate_ind (P : TreeItemCreate → Prop)
    (h : ∀ nm d ch, (∀ c, c ∈ ch.getD [] → P c) → P (TreeItemCreate.mk nm d ch)) :
    ∀ t, P t := by
  have key : ∀ k t, sizeOf t ≤ k → P t := by
    intro k
    induction k with
    | zero => intro t ht; cases t with | mk nm d ch => simp at ht
    | succ k ih =>
      intro t ht
      cases t with
      | mk nm d ch =>
        apply h
        intro c hc
        apply ih
        cases ch with
        | none => simp at hc
        | some cs =>
          simp at hc
          have h1 := List.sizeOf_lt_of_mem hc
          simp at ht ⊢
          omega
  intro t
  exact key (sizeOf t) t le_rfl

theorem fetchRootIds_sorted (db : DB) :
    List.Pairwise (fun a b => a ≤ b) (fetchRootIds db) := by
  unfold fetchRootIds
  refine (List.sorted_mergeSort ?_ ?_ _).imp ?_
  · intro a b c hab hbc
    simp at hab hbc ⊢
    omega
  · intro a b
    simp
    omega
  · intro a b h
    simpa using h

theorem fetchNode_eq_none (db : DB) (nodeId : Nat) (h : ∀ r ∈ db.rows, r.id ≠ nodeId) :
    fetchNode db nodeId = none := by
  unfold fetchNode
  rw [List.find?_eq_none]
  intro r hr
  simpa using h r hr

/-- C2 (amended): the root-id query of GetTree sorts by id (`ORDER BY id`)
and is therefore ascending for every store state; the child-id query used
during tree materialization has no ORDER BY and merely follows the
table's physical row order, so its output is ascending exactly when the
physical order of the matching rows is ascending by id. -/
theorem c2_query_ordering (db : DB) (n : Nat)
    (hphys : List.Pairwise (fun a b : TreeNode => a.id ≤ b.id) db.rows) :
    List.Pairwise (fun a b => a ≤ b) (fetchRootIds db) ∧
    List.Pairwise (fun a b => a ≤ b) (fetchChildren db n) := by
  refine ⟨fetchRootIds_sorted db, ?_⟩
  unfold fetchChildren
  rw [List.pairwise_map]
  exact hphys.filter _

/-- C2 counterexample: a store whose physical row order is not ascending
(as a heap-ordered backend can produce) makes FetchChildren return ids
out of ascending order, refuting the claim that the child query is
ordered independently of the physical row order. -/
theorem c2_counterexample :
    ¬ List.Pairwise (fun a b => a ≤ b)
      (fetchChildren
        ⟨[⟨3, "c", none, some 1⟩, ⟨2, "b", none, some 1⟩, ⟨1, "a", none, none⟩], 4⟩ 1) := by
  decide

theorem c2_witness :
    List.Pairwise (fun a b : TreeNode => a.id ≤ b.id)
      [⟨1, "a", none, none⟩, ⟨2, "b", none, some 1⟩] ∧
    (List.Pairwise (fun a b => a ≤ b)
      (fetchRootIds ⟨[⟨1, "a", none, none⟩, ⟨2, "b", none, some 1⟩], 3⟩) ∧
     List.Pairwise (fun a b => a ≤ b)
      (fetchChildren ⟨[⟨1, "a", none, none⟩, ⟨2, "b", none, some 1⟩], 3⟩ 1)) :=
  ⟨by decide, c2_query_ordering ⟨[⟨1, "a", none, none⟩, ⟨2, "b", none, some 1⟩], 3⟩ 1 (by decide)⟩

/-- C3: UpdateNodeData and DeleteNode on an id that exists in no row both
return 404 and return the store completely unchanged (both handlers check
existence before mutating). -/
theorem c3_notfound_no_change (itemId : Nat) (db : DB) (item : TreeItemUpdate)
    (h : ∀ r ∈ db.rows, r.id ≠ itemId) :
    update_tree_item_data itemId item db = (Except.error 404, db) ∧
    delete_tree_item itemId db = (Except.error 404, db) := by
  have hn : fetchNode db itemId = none := fetchNode_eq_none db itemId h
  constructor
  · unfold update_tree_item_data
    rw [hn]
  · unfold delete_tree_item
    rw [hn]

theorem c3_witness :
    (∀ r ∈ ([⟨1, "a", none, none⟩] : List TreeNode), r.id ≠ 999) ∧
    (update_tree_item_data 999 ⟨"x"⟩ ⟨[⟨1, "a", none, none⟩], 2⟩ =
        (Except.error 404, ⟨[⟨1, "a", none, none⟩], 2⟩) ∧
     delete_tree_item 999 ⟨[⟨1, "a", none, none⟩], 2⟩ =
        (Except.error 404, ⟨[⟨1, "a", none, none⟩], 2⟩)) :=
  ⟨by decide, c3_notfound_no_change 999 ⟨[⟨1, "a", none, none⟩], 2⟩ ⟨"x"⟩ (by decide)⟩

theorem isize_pos (t : TreeItemCreate) : 1 ≤ isize t := by
  cases t with
  | mk nm d ch => cases ch <;> simp [isize]

theorem isize_le_isizeList {c : TreeItemCreate} {cs : List TreeItemCreate}
    (hc : c ∈ cs) : isize c ≤ isizeList cs := by
  induction cs with
  | nil => simp at hc
  | cons c2 cs ih =>
    rw [isizeList]
    rcases List.mem_cons.mp hc with h | h
    · subst h
      omega
    · have := ih h
      omega

theorem flattenItem_head (t : TreeItemCreate) (parent : Option Nat) (n : Nat) :
    ∃ tl, flattenItem t parent n = ⟨n, t.name, t.data, parent⟩ :: tl := by
  cases t with
  | mk nm d ch => cases ch <;> exact ⟨_, rfl⟩

theorem insert_children_eq_of (cs : List TreeItemCreate)
    (ih : ∀ c ∈ cs, ∀ (parent : Option Nat) (db : DB),
      insert_tree_recursive c parent db =
        (db.nextId, ⟨db.rows ++ flattenItem c parent db.nextId, db.nextId + isize c⟩)) :
    ∀ (pid : Nat) (db : DB),
      insert_children cs pid db =
        ⟨db.rows ++ flattenItems cs pid db.nextId, db.nextId + isizeList cs⟩ := by
  induction cs with
  | nil =>
    intro pid db
    cases db
    simp [insert_children, flattenItems, isizeList]
  | cons c cs ihl =>
    intro pid db
    rw [insert_children, ih c (by simp), ihl (fun c2 hc2 => ih c2 (by simp [hc2]))]
    simp [flattenItems, isizeList, List.append_assoc]
    omega

theorem insert_tree_eq (t : TreeItemCreate) :
    ∀ (parent : Option Nat) (db : DB),
      insert_tree_recursive t parent db =
        (db.nextId, ⟨db.rows ++ flattenItem t parent db.nextId, db.nextId + isize t⟩) := by
  induction t using treeItemCreate_ind with
  | h nm d ch ih =>
    intro parent db
    cases ch with
    | none => simp [insert_tree_recursive, flattenItem, isize]
    | some cs =>
      rw [insert_tree_recursive,
        insert_children_eq_of cs (fun c hc => ih c (by simpa using hc))]
      simp [flattenItem, isize, List.append_assoc]
      omega

theorem flattenItems_ids_of (cs : List TreeItemCreate)
    (ih : ∀ c ∈ cs, ∀ (parent : Option Nat) (n : Nat),
      (flattenItem c parent n).map (fun r => r.id) = List.range' n (isize c)) :
    ∀ (pid n : Nat),
      (flattenItems cs pid n).map (fun r => r.id) = List.range' n (isizeList cs) := by
  induction cs with
  | nil =>
    intro pid n
    simp [flattenItems, isizeList]
  | cons c cs ihl =>
    intro pid n
    rw [flattenItems, List.map_append, ih c (by simp),
      ihl (fun c2 hc2 => ih c2 (by simp [hc2])), isizeList]
    have h := List.range'_append n (isize c) (isizeList cs) 1
    have h2 : n + 1 * isize c = n + isize c := by omega
    rw [h2] at h
    rw [Nat.add_comm (isize c) (isizeList cs)]
    exact h

theorem flattenItem_ids (t : TreeItemCreate) :
    ∀ (parent : Option Nat) (n : Nat),
      (flattenItem t parent n).map (fun r => r.id) = List.range' n (isize t) := by
  induction t using treeItemCreate_ind with
  | h nm d ch ih =>
    intro parent n
    cases ch with
    | none => simp [flattenItem, isize]
    | some cs =>
      rw [flattenItem, isize]
      simp only [List.map_cons]
      rw [flattenItems_ids_of cs (fun c hc => ih c (by simpa using hc))]
      rw [Nat.add_comm 1 (isizeList cs), List.range'_succ]

theorem flattenItems_parent_of (cs : List TreeItemCreate)
    (ih : ∀ c ∈ cs, ∀ (parent : Option Nat) (n : Nat), ∀ r ∈ flattenItem c parent n,
      r.parent_id = parent ∨ ∃ p, r.parent_id = some p ∧ n ≤ p ∧ p < n + isize c) :
    ∀ (pid m : Nat), ∀ r ∈ flattenItems cs pid m,
      r.parent_id = some pid ∨ ∃ p, r.parent_id = some p ∧ m ≤ p ∧ p < m + isizeList cs := by
  induction cs with
  | nil =>
    intro pid m r hr
    simp [flattenItems] at hr
  | cons c cs ihl =>
    intro pid m r hr
    rw [flattenItems] at hr
    rcases List.mem_append.mp hr with h | h
    · rcases ih c (by simp) (some pid) m r h with h2 | ⟨p, hp, hp1, hp2⟩
      · exact Or.inl h2
      · refine Or.inr ⟨p, hp, hp1, ?_⟩
        have := isize_le_isizeList (List.mem_cons_self c cs)
        omega
    · rcases ihl (fun c2 hc2 => ih c2 (by simp [hc2])) pid (m + isize c) r h with h2 | ⟨p, hp, hp1, hp2⟩
      · exact Or.inl h2
      · have hsz : isizeList (c :: cs) = isize c + isizeList cs := rfl
        refine Or.inr ⟨p, hp, by omega, by omega⟩

theorem flattenItem_parent (t : TreeItemCreate) :
    ∀ (parent : Option Nat) (n : Nat), ∀ r ∈ flattenItem t parent n,
      r.parent_id = parent ∨ ∃ p, r.parent_id = some p ∧ n ≤ p ∧ p < n + isize t := by
  induction t using treeItemCreate_ind with
  | h nm d ch ih =>
    intro parent n r hr
    cases ch with
    | none =>
      simp [flattenItem] at hr
      subst hr
      exact Or.inl rfl
    | some cs =>
      rw [flattenItem] at hr
      rcases List.mem_cons.mp hr with h | h
      · subst h
        exact Or.inl rfl
      · rcases flattenItems_parent_of cs (fun c hc => ih c (by simpa using hc)) n (n + 1) r h with
          h2 | ⟨p, hp, hp1, hp2⟩
        · refine Or.inr ⟨n, h2, le_rfl, ?_⟩
          have := isize_pos (TreeItemCreate.mk nm d (some cs))
          omega
        · refine Or.inr ⟨p, hp, by omega, ?_⟩
          rw [isize]
          omega

theorem flattenItems_parent (cs : List TreeItemCreate) (pid m : Nat) :
    ∀ r ∈ flattenItems cs pid m,
      r.parent_id = some pid ∨ ∃ p, r.parent_id = some p ∧ m ≤ p ∧ p < m + isizeList cs :=
  flattenItems_parent_of cs (fun c _ => flattenItem_parent c) pid m

theorem flattenItems_parent_isSome (cs : List TreeItemCreate) (pid m : Nat) :
    ∀ r ∈ flattenItems cs pid m, ∃ p, r.parent_id = some p := by
  intro r hr
  rcases flattenItems_parent cs pid m r hr with h | ⟨p, hp, _, _⟩
  · exact ⟨pid, h⟩
  · exact ⟨p, hp⟩

theorem flattenItem_id_ge (t : TreeItemCreate) (parent : Option Nat) (n : Nat) :
    ∀ r ∈ flattenItem t parent n, n ≤ r.id ∧ r.id < n + isize t := by
  intro r hr
  have h := flattenItem_ids t parent n
  have hm : r.id ∈ (flattenItem t parent n).map (fun r => r.id) :=
    List.mem_map_of_mem _ hr
  rw [h] at hm
  rcases List.mem_range'.mp hm with ⟨i, hi, he⟩
  omega

/-- C5: ReplaceTree clears the store, re-inserts the input with a null
parent for the root, and returns the freshly assigned root id (the
current counter value); given the store invariant that existing ids are
below the counter, no row from before the call survives it.  The
resulting rows are exactly the preorder flattening of the input starting
at the fresh id. -/
theorem c5_replace_tree (item : TreeItemCreate) (db : DB)
    (hid : ∀ r ∈ db.rows, r.id < db.nextId) :
    (create_tree_item item db).1.root_id = db.nextId ∧
    (create_tree_item item db).2.rows = flattenItem item none db.nextId ∧
    (∃ r ∈ (create_tree_item item db).2.rows, r.id = db.nextId ∧ r.parent_id = none ∧
      r.name = item.name ∧ r.data = item.data) ∧
    ∀ r ∈ db.rows, r ∉ (create_tree_item item db).2.rows := by
  have h1 : create_tree_item item db =
      (⟨"Tree replaced successfully", db.nextId⟩,
        ⟨flattenItem item none db.nextId, db.nextId + isize item⟩) := by
    simp only [create_tree_item, insert_tree_eq]
    simp
  rw [h1]
  refine ⟨rfl, rfl, ?_, ?_⟩
  · obtain ⟨tl, htl⟩ := flattenItem_head item none db.nextId
    refine ⟨⟨db.nextId, item.name, item.data, none⟩, ?_, rfl, rfl, rfl, rfl⟩
    rw [htl]
    exact List.mem_cons_self _ _
  · intro r hr hmem
    have h2 := flattenItem_id_ge item none db.nextId r hmem
    have h3 := hid r hr
    omega

theorem c5_witness :
    (∀ r ∈ ([⟨1, "old", none, none⟩] : List TreeNode), r.id < 5) ∧
    ((create_tree_item (.mk "root" (some "x") none) ⟨[⟨1, "old", none, none⟩], 5⟩).1.root_id = 5 ∧
     (create_tree_item (.mk "root" (some "x") none) ⟨[⟨1, "old", none, none⟩], 5⟩).2.rows =
       flattenItem (.mk "root" (some "x") none) none 5 ∧
     (∃ r ∈ (create_tree_item (.mk "root" (some "x") none)
         ⟨[⟨1, "old", none, none⟩], 5⟩).2.rows, r.id = 5 ∧ r.parent_id = none ∧
       r.name = (TreeItemCreate.mk "root" (some "x") none).name ∧
       r.data = (TreeItemCreate.mk "root" (some "x") none).data) ∧
     ∀ r ∈ ([⟨1, "old", none, none⟩] : List TreeNode),
       r ∉ (create_tree_item (.mk "root" (some "x") none)
         ⟨[⟨1, "old", none, none⟩], 5⟩).2.rows) :=
  ⟨by decide, c5_replace_tree (.mk "root" (some "x") none) ⟨[⟨1, "old", none, none⟩], 5⟩ (by decide)⟩

/-- C7 (amended): an input whose name field is absent or null is rejected
by validation with a 422 before any store operation runs, leaving the
store unchanged; the empty string however is a valid value for `name`
(`name: str` imposes no minimum length), so ReplaceTree does persist rows
with an empty name — see the counterexample. -/
theorem c7_missing_name_rejected (d : Option (Option String))
    (ch : Option (Option (List RawTreeItem))) (db : DB)
    (nameField : Option (Option String))
    (h : nameField = none ∨ nameField = some none) :
    post_api_tree (.mk nameField d ch) db = (.error 422, db) := by
  rcases h with h | h <;> subst h <;> rfl

theorem c7_witness :
    ((none : Option (Option String)) = none ∨ (none : Option (Option String)) = some none) ∧
    post_api_tree (.mk none none none) ⟨[⟨1, "a", none, none⟩], 2⟩ =
      (.error 422, ⟨[⟨1, "a", none, none⟩], 2⟩) :=
  ⟨Or.inl rfl, c7_missing_name_rejected none none ⟨[⟨1, "a", none, none⟩], 2⟩ none (Or.inl rfl)⟩

/-- C7 counterexample: the empty string passes validation (`name: str`
accepts any string) and ReplaceTree persists a row whose name is empty,
refuting the claim that empty names are rejected before reaching the
store. -/
theorem c7_counterexample :
    validate_tree_item_create (.mk (some (some "")) none none) =
      .ok (.mk "" none none) ∧
    (post_api_tree (.mk (some (some "")) none none) ⟨[], 1⟩).2.rows =
      [⟨1, "", none, none⟩] := by
  constructor
  · rfl
  · rfl

theorem find?_map_update (rows : List TreeNode) (itemId j : Nat) (d : String) :
    (rows.map (fun r => if r.id == itemId then { r with data := some d } else r)).find?
        (fun r => r.id == j) =
      (rows.find? (fun r => r.id == j)).map
        (fun r => if r.id == itemId then { r with data := some d } else r) := by
  rw [List.find?_map]
  have hp : ((fun r : TreeNode => r.id == j) ∘ fun r : TreeNode =>
      if r.id == itemId then { r with data := some d } else r) =
      (fun r : TreeNode => r.id == j) := by
    funext r
    by_cases h : r.id = itemId <;> simp [Function.comp, h]
  rw [hp]

/-- C8: updating the data of an existing node succeeds and overwrites
only that node\'s `data`: looking up any other id afterwards gives exactly
the row from before (every field), the updated id still holds a row with
its original name and parent_id and the new data, and the list of ids in
the store is unchanged. -/
theorem c8_update_data_frame (itemId : Nat) (item : TreeItemUpdate) (db : DB)
    (hex : ∃ r ∈ db.rows, r.id = itemId) :
    (update_tree_item_data itemId item db).1 =
      Except.ok ⟨itemId, item.data, "Data updated successfully"⟩ ∧
    ((update_tree_item_data itemId item db).2.rows.map (fun r => r.id) =
      db.rows.map (fun r => r.id)) ∧
    (∀ j, j ≠ itemId →
      fetchNode (update_tree_item_data itemId item db).2 j = fetchNode db j) ∧
    (∀ r', fetchNode (update_tree_item_data itemId item db).2 itemId = some r' →
      ∃ r, fetchNode db itemId = some r ∧
        r'.id = r.id ∧ r'.name = r.name ∧ r'.parent_id = r.parent_id ∧
        r'.data = some item.data) := by
  obtain ⟨r0, hr0, hid0⟩ := hex
  have hsome : (fetchNode db itemId).isSome := by
    unfold fetchNode
    rw [List.find?_isSome]
    exact ⟨r0, hr0, by simpa using hid0⟩
  obtain ⟨r1, hr1⟩ := Option.isSome_iff_exists.mp hsome
  have hr1id : r1.id = itemId := by
    have := List.find?_some (p := fun r : TreeNode => r.id == itemId)
      (by simpa [fetchNode] using hr1)
    simpa using this
  unfold update_tree_item_data
  rw [hr1]
  refine ⟨rfl, ?_, ?_, ?_⟩
  · simp only [List.map_map]
    have hcomp : ((fun r : TreeNode => r.id) ∘ fun r : TreeNode =>
        if r.id == itemId then { r with data := some item.data } else r) =
        (fun r : TreeNode => r.id) := by
      funext r
      by_cases h : r.id = itemId <;> simp [Function.comp, h]
    rw [hcomp]
  · intro j hj
    show (db.rows.map (fun r =>
        if r.id == itemId then { r with data := some item.data } else r)).find?
        (fun r => r.id == j) = db.rows.find? (fun r => r.id == j)
    rw [find?_map_update]
    cases hf : db.rows.find? (fun r => r.id == j) with
    | none => rfl
    | some r =>
      have hrj : r.id = j := by simpa using List.find?_some hf
      simp [hrj, hj]
  · intro r' hr'
    refine ⟨r1, rfl, ?_⟩
    unfold fetchNode at hr'
    simp only at hr'
    rw [find?_map_update] at hr'
    have heq : db.rows.find? (fun r => r.id == itemId) = some r1 := hr1
    rw [heq] at hr'
    simp [hr1id] at hr'
    rw [← hr']
    simp [hr1id]

theorem c8_witness :
    (∃ r ∈ ([⟨1, "a", some "old", none⟩, ⟨2, "b", none, some 1⟩] : List TreeNode), r.id = 1) ∧
    (update_tree_item_data 1 ⟨"z"⟩ ⟨[⟨1, "a", some "old", none⟩, ⟨2, "b", none, some 1⟩], 3⟩).1 =
      Except.ok ⟨1, "z", "Data updated successfully"⟩ ∧
    fetchNode (update_tree_item_data 1 ⟨"z"⟩
      ⟨[⟨1, "a", some "old", none⟩, ⟨2, "b", none, some 1⟩], 3⟩).2 2 =
      fetchNode ⟨[⟨1, "a", some "old", none⟩, ⟨2, "b", none, some 1⟩], 3⟩ 2 :=
  ⟨by decide,
   (c8_update_data_frame 1 ⟨"z"⟩ ⟨[⟨1, "a", some "old", none⟩, ⟨2, "b", none, some 1⟩], 3⟩
     (by decide)).1,
   (c8_update_data_frame 1 ⟨"z"⟩ ⟨[⟨1, "a", some "old", none⟩, ⟨2, "b", none, some 1⟩], 3⟩
     (by decide)).2.2.1 2 (by decide)⟩

/-- C10: the PUT /api/tree/{id}/data body requires `data` to be a present,
non-null string: a body with `data` absent or null is rejected with 422
before the handler runs and the store is unchanged; consequently the
operation never writes a null `data` — any row with null data after the
call was already present, unchanged, before it. -/
theorem c10_update_requires_data (itemId : Nat) (db : DB) (raw : RawTreeItemUpdate) :
    ((raw.data = none ∨ raw.data = some none) →
      put_api_tree_data itemId raw db = (.error 422, db)) ∧
    (∀ r ∈ (put_api_tree_data itemId raw db).2.rows, r.data = none → r ∈ db.rows) := by
  constructor
  · intro h
    rcases h with h | h <;>
      · obtain ⟨rd⟩ := raw
        simp only at h
        subst h
        rfl
  · intro r hr hnone
    obtain ⟨rd⟩ := raw
    match rd with
    | none => exact hr
    | some none => exact hr
    | some (some s) =>
      unfold put_api_tree_data validate_tree_item_update at hr
      simp only at hr
      unfold update_tree_item_data at hr
      cases hf : fetchNode db itemId with
      | none =>
        rw [hf] at hr
        exact hr
      | some r1 =>
        rw [hf] at hr
        simp only at hr
        rcases List.mem_map.mp hr with ⟨r0, hr0, he⟩
        by_cases h : r0.id = itemId
        · rw [← he] at hnone
          simp [h] at hnone
        · rw [← he] at hnone ⊢
          simpa [h] using hr0

theorem c10_witness :
    put_api_tree_data 1 ⟨none⟩ ⟨[⟨1, "a", none, none⟩], 2⟩ =
      (.error 422, ⟨[⟨1, "a", none, none⟩], 2⟩) ∧
    (⟨1, "a", none, none⟩ : TreeNode) ∈ ([⟨1, "a", none, none⟩] : List TreeNode) :=
  ⟨(c10_update_requires_data 1 ⟨[⟨1, "a", none, none⟩], 2⟩ ⟨none⟩).1 (Or.inl rfl),
   (c10_update_requires_data 1 ⟨[⟨1, "a", none, none⟩], 2⟩ ⟨none⟩).2
     ⟨1, "a", none, none⟩ (by decide) rfl⟩

theorem flattenItems_ids (cs : List TreeItemCreate) (pid n : Nat) :
    (flattenItems cs pid n).map (fun r => r.id) = List.range' n (isizeList cs) :=
  flattenItems_ids_of cs (fun c _ => flattenItem_ids c) pid n

theorem flattenItems_id_ge (cs : List TreeItemCreate) (pid m : Nat) :
    ∀ r ∈ flattenItems cs pid m, m ≤ r.id ∧ r.id < m + isizeList cs := by
  intro r hr
  have hm : r.id ∈ (flattenItems cs pid m).map (fun r => r.id) :=
    List.mem_map_of_mem _ hr
  rw [flattenItems_ids] at hm
  rcases List.mem_range'.mp hm with ⟨i, hi, he⟩
  omega

theorem find?_id_eq_none (l : List TreeNode) (n : Nat) (h : ∀ r ∈ l, r.id ≠ n) :
    l.find? (fun r => r.id == n) = none := by
  rw [List.find?_eq_none]
  intro r hr
  simpa using h r hr

theorem filter_parent_eq_nil (l : List TreeNode) (n : Nat)
    (h : ∀ r ∈ l, ∀ p, r.parent_id = some p → p ≠ n) :
    l.filter (fun r => r.parent_id == some n) = [] := by
  rw [List.filter_eq_nil_iff]
  intro r hr
  cases hp : r.parent_id with
  | none => simp
  | some p =>
    simp only [beq_iff_eq, Option.some.injEq]
    exact h r hr p hp

theorem flattenItem_find_head (t : TreeItemCreate) (parent : Option Nat) (n : Nat) :
    (flattenItem t parent n).find? (fun r => r.id == n) = some ⟨n, t.name, t.data, parent⟩ := by
  obtain ⟨tl, htl⟩ := flattenItem_head t parent n
  rw [htl]
  exact List.find?_cons_of_pos _ (by simp)

theorem fetchNode_decompose (pre flat post : List TreeNode) (N n : Nat) (x : TreeNode)
    (hpre : ∀ r ∈ pre, r.id ≠ n)
    (hflat : flat.find? (fun r => r.id == n) = some x) :
    fetchNode ⟨pre ++ flat ++ post, N⟩ n = some x := by
  unfold fetchNode
  show (pre ++ flat ++ post).find? (fun r => r.id == n) = some x
  rw [List.find?_append, List.find?_append, find?_id_eq_none pre n hpre, hflat]
  simp

theorem fetchChildren_decompose (pre flat post : List TreeNode) (N n : Nat)
    (hpre : ∀ r ∈ pre, ∀ p, r.parent_id = some p → p ≠ n)
    (hpost : ∀ r ∈ post, ∀ p, r.parent_id = some p → p ≠ n) :
    fetchChildren ⟨pre ++ flat ++ post, N⟩ n =
      (flat.filter (fun r => r.parent_id == some n)).map (fun r => r.id) := by
  unfold fetchChildren
  show ((pre ++ flat ++ post).filter (fun r => r.parent_id == some n)).map (fun r => r.id) = _
  rw [List.filter_append, List.filter_append, filter_parent_eq_nil pre n hpre,
    filter_parent_eq_nil post n hpost]
  simp

theorem filter_parent_flattenItem (c : TreeItemCreate) (pid m : Nat) (hpm : pid < m) :
    (flattenItem c (some pid) m).filter (fun r => r.parent_id == some pid) =
      [⟨m, c.name, c.data, some pid⟩] := by
  cases c with
  | mk nm d ch =>
    cases ch with
    | none => simp [flattenItem, TreeItemCreate.name, TreeItemCreate.data, List.filter_cons]
    | some cs =>
      rw [flattenItem, List.filter_cons]
      simp only [beq_self_eq_true, if_true]
      rw [filter_parent_eq_nil]
      · rfl
      · intro r hr p hp
        rcases flattenItems_parent cs m (m + 1) r hr with h | ⟨p2, hp2, hp2a, _⟩
        · rw [h] at hp
          cases hp
          omega
        · rw [hp2] at hp
          cases hp
          omega

theorem filter_parent_flattenItems (cs : List TreeItemCreate) (pid m : Nat) (hpm : pid < m) :
    (flattenItems cs pid m).filter (fun r => r.parent_id == some pid) =
      childHeadRows cs pid m := by
  induction cs generalizing m with
  | nil => rfl
  | cons c cs ih =>
    rw [flattenItems, List.filter_append, filter_parent_flattenItem c pid m hpm,
      ih (m + isize c) (by have := isize_pos c; omega)]
    rfl

theorem build_flatten_children : ∀ (cs : List TreeItemCreate),
    (∀ c ∈ cs, ∀ (parent : Option Nat) (n : Nat) (pre post : List TreeNode) (fuel N : Nat),
      (∀ q, parent = some q → q < n) →
      (∀ r ∈ pre ++ post, r.id < n ∨ n + isize c ≤ r.id) →
      (∀ r ∈ pre ++ post, ∀ p, r.parent_id = some p → p < n ∨ n + isize c ≤ p) →
      isize c ≤ fuel →
      ∃ resp, build_tree_recursive fuel n ⟨pre ++ flattenItem c parent n ++ post, N⟩ = some resp ∧
        stripResp resp = stripItem c) →
    ∀ (pid m : Nat) (pre2 post2 : List TreeNode) (fuel N : Nat),
      pid < m →
      (∀ r ∈ pre2 ++ post2, r.id < m ∨ m + isizeList cs ≤ r.id) →
      (∀ r ∈ pre2 ++ post2, ∀ p, r.parent_id = some p → p < m ∨ m + isizeList cs ≤ p) →
      isizeList cs ≤ fuel →
      ∃ l, ((childHeadRows cs pid m).map (fun r => r.id)).filterMap
          (fun cid => build_tree_recursive fuel cid
            ⟨pre2 ++ flattenItems cs pid m ++ post2, N⟩) = l ∧
        stripResps l = stripItems cs := by
  intro cs
  induction cs with
  | nil =>
    intro _ pid m pre2 post2 fuel N _ _ _ _
    exact ⟨[], rfl, rfl⟩
  | cons c cs ihl =>
    intro ih pid m pre2 post2 fuel N hpm hoid hopar hfuel
    have hisz : isizeList (c :: cs) = isize c + isizeList cs := rfl
    have hposc := isize_pos c
    have hrows : pre2 ++ flattenItems (c :: cs) pid m ++ post2 =
        pre2 ++ flattenItem c (some pid) m ++ (flattenItems cs pid (m + isize c) ++ post2) := by
      rw [flattenItems]
      simp [List.append_assoc]
    obtain ⟨resp, hresp, hstripr⟩ := ih c (List.mem_cons_self c cs) (some pid) m pre2
      (flattenItems cs pid (m + isize c) ++ post2) fuel N
      (fun q hq => by injection hq with h2; omega)
      (by
        intro r hr
        rcases List.mem_append.mp hr with h | h
        · rcases hoid r (List.mem_append_left _ h) with h2 | h2
          · exact Or.inl h2
          · rw [hisz] at h2
            omega
        · rcases List.mem_append.mp h with h2 | h2
          · have := flattenItems_id_ge cs pid (m + isize c) r h2
            omega
          · rcases hoid r (List.mem_append_right _ h2) with h3 | h3
            · exact Or.inl h3
            · rw [hisz] at h3
              omega)
      (by
        intro r hr p hp
        rcases List.mem_append.mp hr with h | h
        · rcases hopar r (List.mem_append_left _ h) p hp with h2 | h2
          · exact Or.inl h2
          · rw [hisz] at h2
            omega
        · rcases List.mem_append.mp h with h2 | h2
          · rcases flattenItems_parent cs pid (m + isize c) r h2 with h3 | ⟨p2, hp2, hp2a, hp2b⟩
            · rw [h3] at hp
              injection hp with h4
              omega
            · rw [hp2] at hp
              injection hp with h4
              omega
          · rcases hopar r (List.mem_append_right _ h2) p hp with h3 | h3
            · exact Or.inl h3
            · rw [hisz] at h3
              omega)
      (by
        have := isize_le_isizeList (List.mem_cons_self c cs)
        omega)
    obtain ⟨l, hl, hstripl⟩ := ihl (fun c2 hc2 => ih c2 (List.mem_cons_of_mem c hc2)) pid
      (m + isize c) (pre2 ++ flattenItem c (some pid) m) post2 fuel N
      (by omega)
      (by
        intro r hr
        rcases List.mem_append.mp hr with h | h
        · rcases List.mem_append.mp h with h2 | h2
          · rcases hoid r (List.mem_append_left _ h2) with h3 | h3
            · omega
            · rw [hisz] at h3
              omega
          · have := flattenItem_id_ge c (some pid) m r h2
            omega
        · rcases hoid r (List.mem_append_right _ h) with h3 | h3
          · omega
          · rw [hisz] at h3
            omega)
      (by
        intro r hr p hp
        rcases List.mem_append.mp hr with h | h
        · rcases List.mem_append.mp h with h2 | h2
          · rcases hopar r (List.mem_append_left _ h2) p hp with h3 | h3
            · omega
            · rw [hisz] at h3
              omega
          · rcases flattenItem_parent c (some pid) m r h2 with h3 | ⟨p2, hp2, hp2a, hp2b⟩
            · rw [h3] at hp
              injection hp with h4
              omega
            · rw [hp2] at hp
              injection hp with h4
              omega
        · rcases hopar r (List.mem_append_right _ h) p hp with h3 | h3
          · omega
          · rw [hisz] at h3
            omega)
      (by
        rw [hisz] at hfuel
        omega)
    have hrows2 : (pre2 ++ flattenItem c (some pid) m) ++
        flattenItems cs pid (m + isize c) ++ post2 =
        pre2 ++ flattenItems (c :: cs) pid m ++ post2 := by
      rw [flattenItems]
      simp [List.append_assoc]
    rw [hrows2] at hl
    rw [← hrows] at hresp
    refine ⟨resp :: l, ?_, ?_⟩
    · rw [show childHeadRows (c :: cs) pid m =
        ⟨m, c.name, c.data, some pid⟩ :: childHeadRows cs pid (m + isize c) from rfl]
      rw [List.map_cons, List.filterMap_cons, hresp, hl]
    · rw [show stripResps (resp :: l) = stripResp resp :: stripResps l from rfl,
        show stripItems (c :: cs) = stripItem c :: stripItems cs from rfl, hstripr, hstripl]

theorem build_flatten (t : TreeItemCreate) :
    ∀ (parent : Option Nat) (n : Nat) (pre post : List TreeNode) (fuel N : Nat),
      (∀ q, parent = some q → q < n) →
      (∀ r ∈ pre ++ post, r.id < n ∨ n + isize t ≤ r.id) →
      (∀ r ∈ pre ++ post, ∀ p, r.parent_id = some p → p < n ∨ n + isize t ≤ p) →
      isize t ≤ fuel →
      ∃ resp, build_tree_recursive fuel n ⟨pre ++ flattenItem t parent n ++ post, N⟩ = some resp ∧
        stripResp resp = stripItem t := by
  induction t using treeItemCreate_ind with
  | h nm d ch ih =>
    intro parent n pre post fuel N hq hoid hopar hfuel
    have hpos := isize_pos (TreeItemCreate.mk nm d ch)
    obtain ⟨fuel2, rfl⟩ : ∃ f, fuel = f + 1 := ⟨fuel - 1, by omega⟩
    have hpre_id : ∀ r ∈ pre, r.id ≠ n := by
      intro r hr
      rcases hoid r (List.mem_append_left _ hr) with h2 | h2 <;> omega
    have hpre_par : ∀ r ∈ pre, ∀ p, r.parent_id = some p → p ≠ n := by
      intro r hr p hp
      rcases hopar r (List.mem_append_left _ hr) p hp with h2 | h2 <;> omega
    have hpost_par : ∀ r ∈ post, ∀ p, r.parent_id = some p → p ≠ n := by
      intro r hr p hp
      rcases hopar r (List.mem_append_right _ hr) p hp with h2 | h2 <;> omega
    have hfind : fetchNode ⟨pre ++ flattenItem (TreeItemCreate.mk nm d ch) parent n ++ post, N⟩
        n = some ⟨n, nm, d, parent⟩ :=
      fetchNode_decompose pre _ post N n _ hpre_id
        (flattenItem_find_head (TreeItemCreate.mk nm d ch) parent n)
    rw [build_tree_recursive, hfind]
    simp only
    cases ch with
    | none =>
      have hchild : fetchChildren
          ⟨pre ++ flattenItem (TreeItemCreate.mk nm d none) parent n ++ post, N⟩ n = [] := by
        rw [fetchChildren_decompose pre _ post N n hpre_par hpost_par]
        rw [show flattenItem (TreeItemCreate.mk nm d none) parent n =
          [⟨n, nm, d, parent⟩] from rfl]
        rw [filter_parent_eq_nil]
        · rfl
        · intro r hr p hp
          simp at hr
          subst hr
          simp only at hp
          have := hq p hp
          omega
      rw [hchild]
      exact ⟨.mk n nm d parent none, rfl, rfl⟩
    | some cs =>
      have hchild : fetchChildren
          ⟨pre ++ flattenItem (TreeItemCreate.mk nm d (some cs)) parent n ++ post, N⟩ n =
          (childHeadRows cs n (n + 1)).map (fun r => r.id) := by
        rw [fetchChildren_decompose pre _ post N n hpre_par hpost_par]
        rw [show flattenItem (TreeItemCreate.mk nm d (some cs)) parent n =
          (⟨n, nm, d, parent⟩ : TreeNode) :: flattenItems cs n (n + 1) from rfl]
        rw [List.filter_cons]
        have hhead : ((⟨n, nm, d, parent⟩ : TreeNode).parent_id == some n) = false := by
          cases hpar : parent with
          | none => simp
          | some q =>
            have hqn := hq q hpar
            simp only [beq_eq_false_iff_ne, ne_eq, Option.some.injEq]
            omega
        rw [hhead]
        simp only [Bool.false_eq_true, if_false]
        rw [filter_parent_flattenItems cs n (n + 1) (by omega)]
      rw [hchild]
      have hisz : isize (TreeItemCreate.mk nm d (some cs)) = 1 + isizeList cs := rfl
      have hrows : pre ++ flattenItem (TreeItemCreate.mk nm d (some cs)) parent n ++ post =
          (pre ++ [⟨n, nm, d, parent⟩]) ++ flattenItems cs n (n + 1) ++ post := by
        rw [show flattenItem (TreeItemCreate.mk nm d (some cs)) parent n =
          (⟨n, nm, d, parent⟩ : TreeNode) :: flattenItems cs n (n + 1) from rfl]
        simp [List.append_assoc]
      obtain ⟨l, hl, hstripl⟩ := build_flatten_children cs
        (fun c hc => ih c (by simpa using hc)) n (n + 1)
        (pre ++ [⟨n, nm, d, parent⟩]) post fuel2 N
        (by omega)
        (by
          intro r hr
          rcases List.mem_append.mp hr with h | h
          · rcases List.mem_append.mp h with h2 | h2
            · rcases hoid r (List.mem_append_left _ h2) with h3 | h3
              · omega
              · rw [hisz] at h3
                omega
            · simp at h2
              subst h2
              exact Or.inl (Nat.lt_succ_self n)
          · rcases hoid r (List.mem_append_right _ h) with h3 | h3
            · omega
            · rw [hisz] at h3
              omega)
        (by
          intro r hr p hp
          rcases List.mem_append.mp hr with h | h
          · rcases List.mem_append.mp h with h2 | h2
            · rcases hopar r (List.mem_append_left _ h2) p hp with h3 | h3
              · omega
              · rw [hisz] at h3
                omega
            · simp at h2
              subst h2
              have hp2 : parent = some p := hp
              have := hq p hp2
              omega
          · rcases hopar r (List.mem_append_right _ h) p hp with h3 | h3
            · omega
            · rw [hisz] at h3
              omega)
        (by
          rw [hisz] at hfuel
          omega)
      rw [← hrows] at hl
      rw [hl]
      cases l with
      | nil =>
        refine ⟨.mk n nm d parent none, rfl, ?_⟩
        rw [show stripResp (.mk n nm d parent none) = .node nm d [] from rfl,
          show stripItem (.mk nm d (some cs)) = .node nm d (stripItems cs) from rfl,
          ← hstripl]
        rfl
      | cons x xs =>
        refine ⟨.mk n nm d parent (some (x :: xs)), rfl, ?_⟩
        rw [show stripResp (.mk n nm d parent (some (x :: xs))) =
          .node nm d (stripResps (x :: xs)) from rfl,
          show stripItem (.mk nm d (some cs)) = .node nm d (stripItems cs) from rfl,
          hstripl]

theorem flattenItem_length (t : TreeItemCreate) (parent : Option Nat) (n : Nat) :
    (flattenItem t parent n).length = isize t := by
  have h := congrArg List.length (flattenItem_ids t parent n)
  simpa using h

theorem fetchRootIds_flatten (item : TreeItemCreate) (n N : Nat) :
    fetchRootIds ⟨flattenItem item none n, N⟩ = [n] := by
  unfold fetchRootIds
  show (((flattenItem item none n).filter (fun r => r.parent_id.isNone)).map
    (fun r => r.id)).mergeSort (fun a b => a ≤ b) = [n]
  have hfilter : (flattenItem item none n).filter (fun r => r.parent_id.isNone) =
      [⟨n, item.name, item.data, none⟩] := by
    cases item with
    | mk nm d ch =>
      cases ch with
      | none => rfl
      | some cs =>
        rw [show flattenItem (TreeItemCreate.mk nm d (some cs)) none n =
          (⟨n, nm, d, none⟩ : TreeNode) :: flattenItems cs n (n + 1) from rfl,
          List.filter_cons]
        simp only [Option.isNone_none, if_true]
        rw [List.filter_eq_nil_iff.mpr]
        · rfl
        · intro r hr
          obtain ⟨p, hp⟩ := flattenItems_parent_isSome cs n (n + 1) r hr
          simp [hp]
  rw [hfilter]
  simp

/-- C1: replacing the tree with any nested input and reading it back via
GetTree yields exactly one tree that is identical to the input in name,
data and child shape (parent/child relationships and sibling order),
with ids erased on both sides. -/
theorem c1_round_trip (item : TreeItemCreate) (db : DB) :
    stripResps (retrieve_tree (create_tree_item item db).2) = [stripItem item] := by
  have h1 : (create_tree_item item db).2 =
      ⟨flattenItem item none db.nextId, db.nextId + isize item⟩ := by
    simp only [create_tree_item, insert_tree_eq]
    simp
  rw [h1]
  unfold retrieve_tree
  dsimp only
  rw [fetchRootIds_flatten]
  obtain ⟨resp, hresp, hstrip⟩ := build_flatten item none db.nextId [] []
    ((flattenItem item none db.nextId).length + 1) (db.nextId + isize item)
    (fun q hq => by cases hq)
    (by intro r hr; simp at hr)
    (by intro r hr; simp at hr)
    (by rw [flattenItem_length]; omega)
  rw [show ([] : List TreeNode) ++ flattenItem item none db.nextId ++ [] =
    flattenItem item none db.nextId by simp] at hresp
  rw [List.filterMap_cons, hresp]
  rw [show List.filterMap (fun rid => build_tree_recursive
    ((flattenItem item none db.nextId).length + 1) rid
    ⟨flattenItem item none db.nextId, db.nextId + isize item⟩) [] = [] from rfl]
  rw [show stripResps [resp] = [stripResp resp] from rfl, hstrip]

theorem WF_parent_lt {db : DB} {r : TreeNode} {p : Nat} (hwf : WF db)
    (hr : r ∈ db.rows) (hp : r.parent_id = some p) : p < r.id := by
  have h := hwf.2 r hr
  unfold parentLtB at h
  rw [hp] at h
  simpa using h

theorem WF_id_inj {db : DB} {r r' : TreeNode} (hwf : WF db)
    (hr : r ∈ db.rows) (hr' : r' ∈ db.rows) (h : r.id = r'.id) : r = r' :=
  List.inj_on_of_nodup_map hwf.1 hr hr' h

theorem WF_of_sublist {db : DB} {rows2 : List TreeNode} {N : Nat} (hwf : WF db)
    (hsub : rows2.Sublist db.rows) : WF ⟨rows2, N⟩ := by
  constructor
  · exact (hsub.map (fun r => r.id)).nodup hwf.1
  · intro r hr
    exact hwf.2 r (hsub.subset hr)

theorem childOf_mono {db1 db2 : DB} (hsub : ∀ r, r ∈ db1.rows → r ∈ db2.rows)
    {a b : Nat} (h : childOf db1 a b) : childOf db2 a b := by
  obtain ⟨r, hr, h1, h2⟩ := h
  exact ⟨r, hsub r hr, h1, h2⟩

theorem Desc_mono {db1 db2 : DB} (hsub : ∀ r, r ∈ db1.rows → r ∈ db2.rows)
    {a x : Nat} (h : Desc db1 a x) : Desc db2 a x := by
  induction h with
  | refl => exact Desc.refl
  | step _ hc ih => exact Desc.step ih (childOf_mono hsub hc)

theorem Desc_le {db : DB} (hwf : WF db) {a x : Nat} (h : Desc db a x) : a ≤ x := by
  induction h with
  | refl => exact le_rfl
  | step _ hc ih =>
    obtain ⟨r, hr, h1, h2⟩ := hc
    have := WF_parent_lt hwf hr h2
    omega

theorem Desc_trans {db : DB} {a b x : Nat} (h1 : Desc db a b) (h2 : Desc db b x) :
    Desc db a x := by
  induction h2 with
  | refl => exact h1
  | step _ hc ih => exact Desc.step ih hc

theorem childOf_unique {db : DB} (hwf : WF db) {m m' c : Nat}
    (h1 : childOf db m c) (h2 : childOf db m' c) : m = m' := by
  obtain ⟨r, hr, hr1, hr2⟩ := h1
  obtain ⟨r', hr', hr1', hr2'⟩ := h2
  have heq : r = r' := WF_id_inj hwf hr hr' (by rw [hr1, hr1'])
  subst heq
  rw [hr2] at hr2'
  injection hr2'

theorem Desc_inv_last {db : DB} {a x : Nat} (h : Desc db a x) (hne : x ≠ a) :
    ∃ m, Desc db a m ∧ childOf db m x := by
  cases h with
  | refl => exact absurd rfl hne
  | step h1 hc => exact ⟨_, h1, hc⟩

theorem Desc_row {db : DB} {a x : Nat} (h : Desc db a x) (hne : x ≠ a) :
    ∃ r ∈ db.rows, r.id = x := by
  obtain ⟨m, _, r, hr, h1, _⟩ := Desc_inv_last h hne
  exact ⟨r, hr, h1⟩

theorem Desc_inv_first {db : DB} {n x : Nat} (h : Desc db n x) (hne : x ≠ n) :
    ∃ c, childOf db n c ∧ Desc db c x := by
  induction h with
  | refl => exact absurd rfl hne
  | step h1 hc ih =>
    rename_i m c
    by_cases hm : m = n
    · subst hm
      exact ⟨c, hc, Desc.refl⟩
    · obtain ⟨c0, hc0, hd0⟩ := ih hm
      exact ⟨c0, hc0, Desc.step hd0 hc⟩

theorem Desc_comparable {db : DB} (hwf : WF db) {a b x : Nat}
    (ha : Desc db a x) (hb : Desc db b x) : Desc db a b ∨ Desc db b a := by
  induction hb with
  | refl => exact Or.inl ha
  | step h1 hc ih =>
    rename_i m c
    by_cases hca : c = a
    · subst hca
      exact Or.inr (Desc.step h1 hc)
    · obtain ⟨m', ha', hcm'⟩ := Desc_inv_last ha hca
      have hmm : m' = m := childOf_unique hwf hcm' hc
      subst hmm
      exact ih ha'

theorem Desc_sibling_not {db : DB} (hwf : WF db) {p c1 c2 : Nat}
    (h1 : childOf db p c1) (h2 : childOf db p c2) (hne : c1 ≠ c2) :
    ¬ Desc db c1 c2 := by
  intro hd
  obtain ⟨m, hdm, hcm⟩ := Desc_inv_last hd (Ne.symm hne)
  have hmp : m = p := childOf_unique hwf hcm h2
  have hle : c1 ≤ m := Desc_le hwf hdm
  obtain ⟨r, hr, hr1, hr2⟩ := h1
  have := WF_parent_lt hwf hr hr2
  omega

theorem Desc_lift {db0 db1 : DB} {c : Nat} {P : Nat → Prop}
    (hrows : ∀ r, r ∈ db1.rows ↔ (r ∈ db0.rows ∧ ¬ P r.id))
    (hP : ∀ y, Desc db0 c y → ¬ P y) :
    ∀ x, Desc db0 c x → Desc db1 c x := by
  intro x h
  induction h with
  | refl => exact Desc.refl
  | step h1 hc ih =>
    rename_i m y
    refine Desc.step ih ?_
    obtain ⟨r, hr, hr1, hr2⟩ := hc
    refine ⟨r, ?_, hr1, hr2⟩
    rw [hrows]
    refine ⟨hr, ?_⟩
    rw [hr1]
    exact hP y (Desc.step h1 ⟨r, hr, hr1, hr2⟩)

theorem fetchChildren_mem {db : DB} {n c : Nat} :
    c ∈ fetchChildren db n ↔ childOf db n c := by
  unfold fetchChildren
  constructor
  · intro h
    rcases List.mem_map.mp h with ⟨r, hr, hid⟩
    rcases List.mem_filter.mp hr with ⟨hr2, hp⟩
    exact ⟨r, hr2, hid, by simpa using hp⟩
  · intro ⟨r, hr, hid, hp⟩
    exact List.mem_map.mpr ⟨r, List.mem_filter.mpr ⟨hr, by simpa using hp⟩, hid⟩

theorem fetchChildren_nodup {db : DB} (hwf : WF db) (n : Nat) :
    (fetchChildren db n).Nodup := by
  unfold fetchChildren
  exact ((List.filter_sublist db.rows).map (fun r => r.id)).nodup hwf.1

theorem delete_recursive_zero (n : Nat) (db : DB) : delete_recursive 0 n db = (db, []) := by
  rw [delete_recursive]

theorem delete_recursive_succ (fuel n : Nat) (db : DB) :
    delete_recursive (fuel + 1) n db =
      (⟨(delete_children fuel (fetchChildren db n) db).1.rows.filter
          (fun r => !(r.id == n)), (delete_children fuel (fetchChildren db n) db).1.nextId⟩,
        (delete_children fuel (fetchChildren db n) db).2 ++ [n]) := by
  rw [delete_recursive]

theorem delete_children_nil (fuel : Nat) (db : DB) : delete_children fuel [] db = (db, []) := by
  rw [delete_children]

theorem delete_children_cons (fuel c : Nat) (cs : List Nat) (db : DB) :
    delete_children fuel (c :: cs) db =
      ((delete_children fuel cs (delete_recursive fuel c db).1).1,
        (delete_recursive fuel c db).2 ++
          (delete_children fuel cs (delete_recursive fuel c db).1).2) := by
  rw [delete_children]

theorem filter_sublist_filter {α : Type} (p q : α → Bool) (l : List α)
    (h : ∀ a ∈ l, p a = true → q a = true) : (l.filter p).Sublist (l.filter q) := by
  induction l with
  | nil => simp
  | cons a l ih =>
    rw [List.filter_cons, List.filter_cons]
    by_cases hp : p a = true
    · rw [if_pos hp, if_pos (h a (List.mem_cons_self a l) hp)]
      exact (ih (fun a2 ha2 hp2 => h a2 (List.mem_cons_of_mem a ha2) hp2)).cons₂ a
    · rw [if_neg hp]
      by_cases hq : q a = true
      · rw [if_pos hq]
        exact (ih (fun a2 ha2 hp2 => h a2 (List.mem_cons_of_mem a ha2) hp2)).cons a
      · rw [if_neg hq]
        exact ih (fun a2 ha2 hp2 => h a2 (List.mem_cons_of_mem a ha2) hp2)

theorem delete_children_sublist_of (fuel : Nat)
    (h : ∀ n db, (delete_recursive fuel n db).1.rows.Sublist db.rows) :
    ∀ (cs : List Nat) (db : DB), (delete_children fuel cs db).1.rows.Sublist db.rows := by
  intro cs
  induction cs with
  | nil =>
    intro db
    rw [delete_children_nil]
  | cons c cs ih =>
    intro db
    rw [delete_children_cons]
    exact (ih _).trans (h c db)

theorem delete_rec_sublist :
    ∀ (fuel n : Nat) (db : DB), (delete_recursive fuel n db).1.rows.Sublist db.rows := by
  intro fuel
  induction fuel with
  | zero =>
    intro n db
    rw [delete_recursive_zero]
  | succ fuel ih =>
    intro n db
    rw [delete_recursive_succ]
    exact (List.filter_sublist _).trans (delete_children_sublist_of fuel (ih) _ db)

theorem delete_children_spec (db : DB) (hwf : WF db) (n : Nat) (fuel : Nat)
    (hrec : ∀ (m : Nat) (db0 : DB), WF db0 →
      (db0.rows.filter (fun r => m < r.id)).length < fuel →
      ((∀ x, x ∈ (delete_recursive fuel m db0).2 ↔ Desc db0 m x) ∧
       (∀ r, r ∈ (delete_recursive fuel m db0).1.rows ↔ r ∈ db0.rows ∧ ¬ Desc db0 m r.id) ∧
       List.Pairwise (fun a b => ¬ childOf db0 a b) (delete_recursive fuel m db0).2)) :
    ∀ (cs : List Nat) (db0 : DB),
      db0.rows.Sublist db.rows →
      (db0.rows.filter (fun r => n < r.id)).length ≤ fuel →
      cs.Nodup →
      (∀ c ∈ cs, childOf db n c) →
      (∀ c ∈ cs, ∃ r ∈ db0.rows, r.id = c) →
      (∀ c ∈ cs, ∀ x, Desc db c x → Desc db0 c x) →
      ((∀ x, x ∈ (delete_children fuel cs db0).2 ↔ ∃ c ∈ cs, Desc db c x) ∧
       (∀ r, r ∈ (delete_children fuel cs db0).1.rows ↔
          r ∈ db0.rows ∧ ¬ ∃ c ∈ cs, Desc db c r.id) ∧
       List.Pairwise (fun a b => ¬ childOf db a b) (delete_children fuel cs db0).2) := by
  intro cs
  induction cs with
  | nil =>
    intro db0 hsub hlen hnodup hch hpres hlift
    rw [delete_children_nil]
    refine ⟨fun x => by simp, fun r => by simp, List.Pairwise.nil⟩
  | cons c cs ih =>
    intro db0 hsub hlen hnodup hch hpres hlift
    have hwf0 : WF db0 := by
      have h := WF_of_sublist (N := db0.nextId) hwf hsub
      exact h
    obtain ⟨rc, hrc, hrcid⟩ := hpres c (List.mem_cons_self c cs)
    have hcn : childOf db n c := hch c (List.mem_cons_self c cs)
    have hnc : n < c := by
      obtain ⟨r, hr, h1, h2⟩ := hcn
      have := WF_parent_lt hwf hr h2
      omega
    have hcnotin : c ∉ cs := (List.nodup_cons.mp hnodup).1
    have hmeas : (db0.rows.filter (fun r => c < r.id)).length < fuel := by
      have h1 : (db0.rows.filter (fun r => c < r.id)).Sublist
          (db0.rows.filter (fun r => n < r.id)) := by
        apply filter_sublist_filter
        intro a _ hp
        simp at hp ⊢
        omega
      have h2 : rc ∈ db0.rows.filter (fun r => n < r.id) := by
        rw [List.mem_filter]
        exact ⟨hrc, by simp [hrcid]; omega⟩
      have h3 : rc ∉ db0.rows.filter (fun r => c < r.id) := by
        intro hmem
        rw [List.mem_filter] at hmem
        simp [hrcid] at hmem
      have h4 := h1.length_le
      rcases Nat.lt_or_ge (db0.rows.filter (fun r => c < r.id)).length
          (db0.rows.filter (fun r => n < r.id)).length with h5 | h5
      · omega
      · have h6 : (db0.rows.filter (fun r => c < r.id)).length =
            (db0.rows.filter (fun r => n < r.id)).length := by omega
        have h7 := h1.eq_of_length h6
        rw [h7] at h3
        exact absurd h2 h3
    obtain ⟨hlog1, hrows1, hpw1⟩ := hrec c db0 hwf0 hmeas
    have hsub0db : ∀ r, r ∈ db0.rows → r ∈ db.rows := fun r hr => hsub.subset hr
    have hlog1db : ∀ x, x ∈ (delete_recursive fuel c db0).2 ↔ Desc db c x := by
      intro x
      rw [hlog1]
      exact ⟨Desc_mono hsub0db, hlift c (List.mem_cons_self c cs) x⟩
    have hsub1 : (delete_recursive fuel c db0).1.rows.Sublist db0.rows :=
      delete_rec_sublist fuel c db0
    have hsibling : ∀ c2 ∈ cs, ∀ y, Desc db0 c2 y → ¬ Desc db0 c y := by
      intro c2 hc2 y hy2 hyc
      have hne : c ≠ c2 := fun he => hcnotin (he ▸ hc2)
      have h1 := Desc_mono hsub0db hy2
      have h2 := Desc_mono hsub0db hyc
      rcases Desc_comparable hwf h2 h1 with h3 | h3
      · exact Desc_sibling_not hwf hcn (hch c2 (List.mem_cons_of_mem c hc2)) hne h3
      · exact Desc_sibling_not hwf (hch c2 (List.mem_cons_of_mem c hc2)) hcn (Ne.symm hne) h3
    have hlift1 : ∀ c2 ∈ cs, ∀ x, Desc db c2 x → Desc (delete_recursive fuel c db0).1 c2 x := by
      intro c2 hc2 x hx
      have h0 : Desc db0 c2 x := hlift c2 (List.mem_cons_of_mem c hc2) x hx
      exact Desc_lift hrows1 (fun y hy => by
        intro hPy
        exact hsibling c2 hc2 y hy hPy) x h0
    have hpres1 : ∀ c2 ∈ cs, ∃ r ∈ (delete_recursive fuel c db0).1.rows, r.id = c2 := by
      intro c2 hc2
      obtain ⟨r2, hr2, hr2id⟩ := hpres c2 (List.mem_cons_of_mem c hc2)
      refine ⟨r2, ?_, hr2id⟩
      rw [hrows1]
      refine ⟨hr2, ?_⟩
      rw [hr2id]
      intro hdesc
      have hne : c ≠ c2 := fun he => hcnotin (he ▸ hc2)
      have h2 := Desc_mono hsub0db hdesc
      exact Desc_sibling_not hwf hcn (hch c2 (List.mem_cons_of_mem c hc2)) hne h2
    obtain ⟨hlog2, hrows2, hpw2⟩ := ih (delete_recursive fuel c db0).1
      (hsub1.trans hsub)
      (le_trans (List.Sublist.length_le (hsub1.filter _)) hlen)
      (List.nodup_cons.mp hnodup).2
      (fun c2 hc2 => hch c2 (List.mem_cons_of_mem c hc2))
      hpres1 hlift1
    rw [delete_children_cons]
    have hrow1_of_log : ∀ b ∈ (delete_recursive fuel c db0).2, ∃ r ∈ db0.rows, r.id = b := by
      intro b hb
      have hd := (hlog1 b).mp hb
      by_cases hbc : b = c
      · exact ⟨rc, hrc, by rw [hrcid, hbc]⟩
      · exact Desc_row hd hbc
    refine ⟨?_, ?_, ?_⟩
    · intro x
      rw [List.mem_append, hlog1db, hlog2]
      constructor
      · rintro (h | ⟨c2, hc2, h⟩)
        · exact ⟨c, List.mem_cons_self c cs, h⟩
        · exact ⟨c2, List.mem_cons_of_mem c hc2, h⟩
      · rintro ⟨c2, hc2, h⟩
        rcases List.mem_cons.mp hc2 with he | he
        · exact Or.inl (he ▸ h)
        · exact Or.inr ⟨c2, he, h⟩
    · intro r
      rw [hrows2, hrows1]
      constructor
      · rintro ⟨⟨h1, h2⟩, h3⟩
        refine ⟨h1, ?_⟩
        rintro ⟨c2, hc2, hd⟩
        rcases List.mem_cons.mp hc2 with he | he
        · exact h2 (hlift c (List.mem_cons_self c cs) r.id (he ▸ hd))
        · exact h3 ⟨c2, he, hd⟩
      · rintro ⟨h1, h2⟩
        refine ⟨⟨h1, ?_⟩, ?_⟩
        · intro hd
          exact h2 ⟨c, List.mem_cons_self c cs, Desc_mono hsub0db hd⟩
        · rintro ⟨c2, hc2, hd⟩
          exact h2 ⟨c2, List.mem_cons_of_mem c hc2, hd⟩
    · rw [List.pairwise_append]
      refine ⟨?_, hpw2, ?_⟩
      · refine hpw1.imp_of_mem ?_
        intro a b ha hb hnab hab
        apply hnab
        obtain ⟨rb, hrb, hrbid⟩ := hrow1_of_log b hb
        obtain ⟨rb', hrb', hrbid', hrbpar'⟩ := hab
        have heq : rb = rb' := WF_id_inj hwf (hsub0db rb hrb) hrb' (by rw [hrbid, hrbid'])
        exact ⟨rb, hrb, hrbid, by rw [heq]; exact hrbpar'⟩
      · intro a ha b hb hab
        have hda : Desc db c a := (hlog1db a).mp ha
        obtain ⟨c2, hc2, hdb2⟩ := (hlog2 b).mp hb
        have hne : c ≠ c2 := fun he => hcnotin (he ▸ hc2)
        have hc2n : childOf db n c2 := hch c2 (List.mem_cons_of_mem c hc2)
        by_cases hbc2 : b = c2
        · subst hbc2
          have han : a = n := childOf_unique hwf hab hc2n
          have hca : c ≤ a := Desc_le hwf hda
          omega
        · obtain ⟨m, hdm, hcm⟩ := Desc_inv_last hdb2 hbc2
          have hma : m = a := childOf_unique hwf hcm hab
          subst hma
          rcases Desc_comparable hwf hda hdm with h3 | h3
          · exact Desc_sibling_not hwf hcn hc2n hne h3
          · exact Desc_sibling_not hwf hc2n hcn (Ne.symm hne) h3

theorem delete_rec_spec :
    ∀ (fuel n : Nat) (db : DB), WF db →
      (db.rows.filter (fun r => n < r.id)).length < fuel →
      ((∀ x, x ∈ (delete_recursive fuel n db).2 ↔ Desc db n x) ∧
       (∀ r, r ∈ (delete_recursive fuel n db).1.rows ↔ r ∈ db.rows ∧ ¬ Desc db n r.id) ∧
       List.Pairwise (fun a b => ¬ childOf db a b) (delete_recursive fuel n db).2) := by
  intro fuel
  induction fuel with
  | zero =>
    intro n db hwf hlen
    omega
  | succ fuel ih =>
    intro n db hwf hlen
    have hcs_nodup := fetchChildren_nodup hwf n
    have hcs_mem : ∀ c ∈ fetchChildren db n, childOf db n c :=
      fun c hc => fetchChildren_mem.mp hc
    have hpres : ∀ c ∈ fetchChildren db n, ∃ r ∈ db.rows, r.id = c := by
      intro c hc
      obtain ⟨r, hr, h1, _⟩ := fetchChildren_mem.mp hc
      exact ⟨r, hr, h1⟩
    obtain ⟨hlogC, hrowsC, hpwC⟩ := delete_children_spec db hwf n fuel ih
      (fetchChildren db n) db (List.Sublist.refl _) (by omega) hcs_nodup hcs_mem hpres
      (fun c _ x h => h)
    have hdec : ∀ x, Desc db n x ↔ (x = n ∨ ∃ c ∈ fetchChildren db n, Desc db c x) := by
      intro x
      constructor
      · intro h
        by_cases hx : x = n
        · exact Or.inl hx
        · obtain ⟨c, hc, hd⟩ := Desc_inv_first h hx
          exact Or.inr ⟨c, fetchChildren_mem.mpr hc, hd⟩
      · rintro (h | ⟨c, hc, hd⟩)
        · exact h ▸ Desc.refl
        · exact Desc_trans (Desc.step Desc.refl (fetchChildren_mem.mp hc)) hd
    rw [delete_recursive_succ]
    refine ⟨?_, ?_, ?_⟩
    · intro x
      rw [List.mem_append, hlogC, hdec x]
      simp only [List.mem_singleton]
      exact or_comm
    · intro r
      rw [List.mem_filter, hrowsC, hdec r.id]
      have hbool : ((!(r.id == n)) = true) ↔ r.id ≠ n := by simp
      rw [hbool]
      constructor
      · rintro ⟨⟨h1, h2⟩, h3⟩
        exact ⟨h1, fun h => h.elim h3 h2⟩
      · rintro ⟨h1, h2⟩
        exact ⟨⟨h1, fun h => h2 (Or.inr h)⟩, fun he => h2 (Or.inl he)⟩
    · rw [List.pairwise_append]
      refine ⟨hpwC, List.pairwise_singleton _ _, ?_⟩
      intro a ha b hb hab
      simp only [List.mem_singleton] at hb
      subst hb
      obtain ⟨c, hc, hdca⟩ := (hlogC a).mp ha
      have hca : c ≤ a := Desc_le hwf hdca
      obtain ⟨rb, hrb, hrbid, hrbpar⟩ := hab
      have han : a < b := by
        have := WF_parent_lt hwf hrb hrbpar
        omega
      obtain ⟨rc2, hrc2, hrc2id, hrc2par⟩ := fetchChildren_mem.mp hc
      have hnc : b < c := by
        have := WF_parent_lt hwf hrc2 hrc2par
        omega
      omega

/-- C4: deleting an existing node removes exactly that node and all of
its descendants: afterwards GetFlatItems contains a row iff it was in the
store before and its id is outside the deleted subtree.  Stated over
well-formed stores (unique ids, parent inserted before child), which is
what the service's insertion discipline maintains. -/
theorem c4_delete_completeness (n : Nat) (db : DB) (hwf : WF db)
    (hex : ∃ r ∈ db.rows, r.id = n) :
    (delete_tree_item n db).1 = Except.ok ⟨n, "Item and children deleted successfully"⟩ ∧
    ∀ r, (r ∈ retrieve_all_items (delete_tree_item n db).2 ↔
      r ∈ db.rows ∧ ¬ Desc db n r.id) := by
  obtain ⟨r0, hr0, hr0id⟩ := hex
  obtain ⟨r1, hr1⟩ : ∃ r1, fetchNode db n = some r1 := by
    apply Option.isSome_iff_exists.mp
    unfold fetchNode
    rw [List.find?_isSome]
    exact ⟨r0, hr0, by simpa using hr0id⟩
  have hmeas : (db.rows.filter (fun r => n < r.id)).length < db.rows.length + 1 := by
    have h := (List.filter_sublist (p := fun r : TreeNode => n < r.id) db.rows).length_le
    omega
  have hspec := delete_rec_spec (db.rows.length + 1) n db hwf hmeas
  unfold delete_tree_item
  rw [hr1]
  refine ⟨rfl, ?_⟩
  intro r
  unfold retrieve_all_items
  rw [(List.mergeSort_perm _ _).mem_iff]
  exact hspec.2.1 r

theorem c4_witness :
    WF ⟨[⟨1, "a", none, none⟩, ⟨2, "b", none, some 1⟩, ⟨3, "c", none, some 2⟩], 4⟩ ∧
    (∃ r ∈ (⟨[⟨1, "a", none, none⟩, ⟨2, "b", none, some 1⟩, ⟨3, "c", none, some 2⟩], 4⟩ :
        DB).rows, r.id = 2) ∧
    ((delete_tree_item 2
        ⟨[⟨1, "a", none, none⟩, ⟨2, "b", none, some 1⟩, ⟨3, "c", none, some 2⟩], 4⟩).1 =
      Except.ok ⟨2, "Item and children deleted successfully"⟩ ∧
     ∀ r, (r ∈ retrieve_all_items (delete_tree_item 2
        ⟨[⟨1, "a", none, none⟩, ⟨2, "b", none, some 1⟩, ⟨3, "c", none, some 2⟩], 4⟩).2 ↔
       r ∈ (⟨[⟨1, "a", none, none⟩, ⟨2, "b", none, some 1⟩, ⟨3, "c", none, some 2⟩], 4⟩ :
         DB).rows ∧
       ¬ Desc ⟨[⟨1, "a", none, none⟩, ⟨2, "b", none, some 1⟩, ⟨3, "c", none, some 2⟩], 4⟩
         2 r.id)) :=
  ⟨by decide, by decide,
   c4_delete_completeness 2
     ⟨[⟨1, "a", none, none⟩, ⟨2, "b", none, some 1⟩, ⟨3, "c", none, some 2⟩], 4⟩
     (by decide) (by decide)⟩

/-- C6: in the recursive delete run by DeleteNode (fuel `rows.length + 1`
as invoked by the handler), the trace of executed DELETE statements is
post-order: a node is never deleted while a child of it is deleted later
(no earlier trace entry is the parent of a later one), and the trace
covers exactly the subtree of the deleted node. -/
theorem c6_postorder_delete (n : Nat) (db : DB) (hwf : WF db)
    (hex : ∃ r ∈ db.rows, r.id = n) :
    List.Pairwise (fun a b => ¬ childOf db a b)
      (delete_recursive (db.rows.length + 1) n db).2 ∧
    ∀ x, (x ∈ (delete_recursive (db.rows.length + 1) n db).2 ↔ Desc db n x) := by
  have hmeas : (db.rows.filter (fun r => n < r.id)).length < db.rows.length + 1 := by
    have h := (List.filter_sublist (p := fun r : TreeNode => n < r.id) db.rows).length_le
    omega
  have hspec := delete_rec_spec (db.rows.length + 1) n db hwf hmeas
  exact ⟨hspec.2.2, hspec.1⟩

theorem c6_witness :
    WF ⟨[⟨1, "a", none, none⟩, ⟨2, "b", none, some 1⟩, ⟨3, "c", none, some 2⟩], 4⟩ ∧
    (∃ r ∈ (⟨[⟨1, "a", none, none⟩, ⟨2, "b", none, some 1⟩, ⟨3, "c", none, some 2⟩], 4⟩ :
        DB).rows, r.id = 1) ∧
    (List.Pairwise (fun a b =>
        ¬ childOf ⟨[⟨1, "a", none, none⟩, ⟨2, "b", none, some 1⟩,
          ⟨3, "c", none, some 2⟩], 4⟩ a b)
      (delete_recursive 4 1
        ⟨[⟨1, "a", none, none⟩, ⟨2, "b", none, some 1⟩, ⟨3, "c", none, some 2⟩], 4⟩).2 ∧
     ∀ x, (x ∈ (delete_recursive 4 1
        ⟨[⟨1, "a", none, none⟩, ⟨2, "b", none, some 1⟩, ⟨3, "c", none, some 2⟩], 4⟩).2 ↔
       Desc ⟨[⟨1, "a", none, none⟩, ⟨2, "b", none, some 1⟩, ⟨3, "c", none, some 2⟩], 4⟩
         1 x)) :=
  ⟨by decide, by decide,
   c6_postorder_delete 1
     ⟨[⟨1, "a", none, none⟩, ⟨2, "b", none, some 1⟩, ⟨3, "c", none, some 2⟩], 4⟩
     (by decide) (by decide)⟩

theorem build_ok :
    ∀ (fuel n : Nat) (db : DB), WF db →
      (db.rows.filter (fun r => n < r.id)).length < fuel →
      (∃ r ∈ db.rows, r.id = n) →
      ∃ t, build_tree_recursive fuel n db = some t ∧ RespOk db t ∧ t.id = n := by
  intro fuel
  induction fuel with
  | zero =>
    intro n db hwf hlen hex
    omega
  | succ fuel ih =>
    intro n db hwf hlen hex
    obtain ⟨r0, hr0, hr0id⟩ := hex
    obtain ⟨r1, hr1⟩ : ∃ r1, fetchNode db n = some r1 := by
      apply Option.isSome_iff_exists.mp
      unfold fetchNode
      rw [List.find?_isSome]
      exact ⟨r0, hr0, by simpa using hr0id⟩
    have hr1id : r1.id = n := by
      have := List.find?_some (p := fun r : TreeNode => r.id == n)
        (by simpa [fetchNode] using hr1)
      simpa using this
    have hchildren : ∀ c ∈ fetchChildren db n,
        ∃ t, build_tree_recursive fuel c db = some t ∧ RespOk db t ∧ t.id = c := by
      intro c hc
      obtain ⟨rc, hrc, hrcid, hrcpar⟩ := fetchChildren_mem.mp hc
      have hnc : n < c := by
        have := WF_parent_lt hwf hrc hrcpar
        omega
      have hmeas : (db.rows.filter (fun r => c < r.id)).length < fuel := by
        have h1 : (db.rows.filter (fun r => c < r.id)).Sublist
            (db.rows.filter (fun r => n < r.id)) := by
          apply filter_sublist_filter
          intro a _ hp
          simp at hp ⊢
          omega
        have h2 : rc ∈ db.rows.filter (fun r => n < r.id) := by
          rw [List.mem_filter]
          exact ⟨hrc, by simp [hrcid]; omega⟩
        have h3 : rc ∉ db.rows.filter (fun r => c < r.id) := by
          intro hmem
          rw [List.mem_filter] at hmem
          simp [hrcid] at hmem
        have h4 := h1.length_le
        rcases Nat.lt_or_ge (db.rows.filter (fun r => c < r.id)).length
            (db.rows.filter (fun r => n < r.id)).length with h5 | h5
        · omega
        · have h6 : (db.rows.filter (fun r => c < r.id)).length =
              (db.rows.filter (fun r => n < r.id)).length := by omega
          have h7 := h1.eq_of_length h6
          rw [h7] at h3
          exact absurd h2 h3
      exact ih c db hwf hmeas ⟨rc, hrc, hrcid⟩
    have hfm : ∀ cs2 : List Nat,
        (∀ c ∈ cs2, ∃ t, build_tree_recursive fuel c db = some t ∧ RespOk db t ∧ t.id = c) →
        ∃ l, cs2.filterMap (fun c => build_tree_recursive fuel c db) = l ∧
          (∀ t ∈ l, RespOk db t) ∧ (l = [] ↔ cs2 = []) := by
      intro cs2
      induction cs2 with
      | nil => exact fun _ => ⟨[], rfl, fun t ht => absurd ht (List.not_mem_nil t), by simp⟩
      | cons c cs2 ih2 =>
        intro hall
        obtain ⟨tc, htc, hokc, _⟩ := hall c (List.mem_cons_self c cs2)
        obtain ⟨l, hl, hokl, hiff⟩ := ih2 (fun c2 hc2 => hall c2 (List.mem_cons_of_mem c hc2))
        refine ⟨tc :: l, ?_, ?_, by simp⟩
        · rw [List.filterMap_cons, htc, hl]
        · intro t ht
          rcases List.mem_cons.mp ht with he | he
          · exact he ▸ hokc
          · exact hokl t he
    obtain ⟨l, hl, hokl, hiff⟩ := hfm (fetchChildren db n) hchildren
    rw [build_tree_recursive, hr1]
    simp only
    rw [hl]
    cases l with
    | nil =>
      refine ⟨.mk r1.id r1.name r1.data r1.parent_id none, rfl, ?_, hr1id⟩
      rw [hr1id]
      exact RespOk.noChildren n r1.name r1.data r1.parent_id (hiff.mp rfl)
    | cons x xs =>
      refine ⟨.mk r1.id r1.name r1.data r1.parent_id (some (x :: xs)), rfl, ?_, hr1id⟩
      rw [hr1id]
      refine RespOk.someChildren n r1.name r1.data r1.parent_id (x :: xs)
        (by simp) ?_ hokl
      intro hempty
      have : (x :: xs : List TreeItemResponse) = [] := hiff.mpr hempty
      simp at this

/-- C9: on a well-formed store, every node of every tree returned by
GetTree has its `children` field equal to `none` exactly when the store
holds no child row for it, and the field is never an explicit empty
sequence. -/
theorem c9_children_field (db : DB) (hwf : WF db) :
    ∀ t ∈ retrieve_tree db, RespOk db t := by
  intro t ht
  unfold retrieve_tree at ht
  rcases List.mem_filterMap.mp ht with ⟨rid, hrid, hbuild⟩
  have hpres : ∃ r ∈ db.rows, r.id = rid := by
    unfold fetchRootIds at hrid
    rw [(List.mergeSort_perm _ _).mem_iff] at hrid
    rcases List.mem_map.mp hrid with ⟨r, hr, hid⟩
    exact ⟨r, (List.mem_filter.mp hr).1, hid⟩
  have hmeas : (db.rows.filter (fun r => rid < r.id)).length < db.rows.length + 1 := by
    have h := (List.filter_sublist (p := fun r : TreeNode => rid < r.id) db.rows).length_le
    omega
  obtain ⟨t', ht', hok, _⟩ := build_ok (db.rows.length + 1) rid db hwf hmeas hpres
  rw [ht'] at hbuild
  injection hbuild with h
  exact h ▸ hok

theorem c9_witness :
    WF ⟨[⟨1, "a", none, none⟩, ⟨2, "b", none, some 1⟩], 3⟩ ∧
    ∀ t ∈ retrieve_tree ⟨[⟨1, "a", none, none⟩, ⟨2, "b", none, some 1⟩], 3⟩,
      RespOk ⟨[⟨1, "a", none, none⟩, ⟨2, "b", none, some 1⟩], 3⟩ t :=
  ⟨by decide, c9_children_field ⟨[⟨1, "a", none, none⟩, ⟨2, "b", none, some 1⟩], 3⟩ (by decide)⟩
